import Mathlib

/-!
Shallow embedding of the BrainFuck interpreter `src/brainfuck.py`
(class `Band`, class `BrainFuck`), together with proofs of the
specification's claims about the tape, program validation and the
execution engine.

Python lists of arbitrary-precision integers are modelled as `List Int`;
the program string as `List Char`; the interpreter state as an explicit
structure transformed by a step function.
-/

/-- The two-list storage band (class `Band`).  `rband` holds the current
cell at index 0 together with everything to its right; `lband` holds the
cells strictly to the left of the current one, nearest first. -/
structure Band where
  lband : List Int
  rband : List Int
deriving DecidableEq

namespace Band

/-- `Band.reset`: discard all history, return to a single zero cell
(`self.rband = [0]; self.lband = []`). -/
def reset (_ : Band) : Band := ⟨[], [0]⟩

/-- A freshly constructed band: `Band.__init__` just calls `reset`. -/
def init : Band := ⟨[], [0]⟩

/-- `Band.left`: if `lband` is empty, materialize `[0]` there first; then
move the first element of `lband` to the front of `rband`. -/
def left (b : Band) : Band :=
  let l := if b.lband = [] then [0] else b.lband
  ⟨l.drop 1, l.take 1 ++ b.rband⟩

/-- `Band.right`: move the first element of `rband` to the front of
`lband`; if `rband` became empty, refill it with `[0]`. -/
def right (b : Band) : Band :=
  let r := b.rband.drop 1
  ⟨b.rband.take 1 ++ b.lband, if r = [] then [0] else r⟩

/-- `Band.plus`: `self.rband[0] += 1`. -/
def plus (b : Band) : Band := ⟨b.lband, b.rband.modifyHead (· + 1)⟩

/-- `Band.minus`: `self.rband[0] -= 1`. -/
def minus (b : Band) : Band := ⟨b.lband, b.rband.modifyHead (· - 1)⟩

/-- `Band.get`: `return self.rband[0]`.  (`rband` is never empty in any
reachable band, see `band_rband_never_empty`.) -/
def get (b : Band) : Int := b.rband.headD 0

/-- `Band.set`: `self.rband[0] = value`. -/
def set (b : Band) (value : Int) : Band := ⟨b.lband, b.rband.set 0 value⟩

end Band

/-- One mutating operation on the band (the `get` query is pure and is
stated separately). -/
inductive BandOp where
  | left
  | right
  | plus
  | minus
  | setv (value : Int)
  | reset
deriving DecidableEq

/-- Dispatch one `BandOp` to the corresponding `Band` method. -/
def Band.applyOp (b : Band) : BandOp → Band
  | .left => b.left
  | .right => b.right
  | .plus => b.plus
  | .minus => b.minus
  | .setv v => b.set v
  | .reset => b.reset

/-- Run a sequence of band operations from a freshly constructed band. -/
def runBandOps (ops : List BandOp) : Band :=
  ops.foldl Band.applyOp Band.init

/-- Abstraction function: the integer-indexed contents of a band whose
current cell sits at absolute position `pos`.  Position `i ≥ pos` lives at
`rband[i - pos]`, position `i < pos` at `lband[pos - 1 - i]`; absent
entries read as 0. -/
def bandAbs (b : Band) (pos i : Int) : Int :=
  if pos ≤ i then b.rband.getD (i - pos).toNat 0
  else b.lband.getD (pos - 1 - i).toNat 0

/-- The specification-level tape: an infinite zero-initialized map from
signed integer positions to integer cell values, plus the current
position. -/
structure TapeSpec where
  pos : Int
  mem : Int → Int

/-- The specification-level fresh tape: position 0, all cells 0. -/
def TapeSpec.init : TapeSpec := ⟨0, fun _ => 0⟩

/-- The specification-level effect of each band operation: moves shift the
position, writes update the map at the current position, reset returns to
the fresh tape. -/
def TapeSpec.applyOp (t : TapeSpec) : BandOp → TapeSpec
  | .left => ⟨t.pos - 1, t.mem⟩
  | .right => ⟨t.pos + 1, t.mem⟩
  | .plus => ⟨t.pos, Function.update t.mem t.pos (t.mem t.pos + 1)⟩
  | .minus => ⟨t.pos, Function.update t.mem t.pos (t.mem t.pos - 1)⟩
  | .setv v => ⟨t.pos, Function.update t.mem t.pos v⟩
  | .reset => TapeSpec.init

/-- Run a sequence of operations on the specification-level tape. -/
def runTapeSpec (ops : List BandOp) : TapeSpec :=
  ops.foldl TapeSpec.applyOp TapeSpec.init

/-- The band agrees, cell by cell, with a specification-level tape. -/
def Agrees (b : Band) (t : TapeSpec) : Prop :=
  ∀ i : Int, bandAbs b t.pos i = t.mem i

/-- `BrainFuck.valid_chars`: the eight instruction characters. -/
def valid_chars : List Char := ['+', '-', '.', ',', '<', '>', '[', ']']

/-- `BrainFuck.sanitize`: keep only instruction characters, everything
else is a comment and is dropped. -/
def sanitize (program : List Char) : List Char :=
  program.filter (· ∈ valid_chars)

/-- The outcome of `BrainFuck.check_valid`: `tooManyClose` is the early
exit taken the moment the balance counter goes negative, `tooManyOpen`
the exit taken after the scan when the balance is still positive (the
source reports it as "not enough closing"); both terminate the process
with code -1. -/
inductive ValidateResult where
  | ok
  | tooManyClose
  | tooManyOpen
deriving DecidableEq

/-- The scanning loop of `BrainFuck.check_valid`: `balance` is
incremented on each opening bracket and decremented on each closing one;
the scan aborts as soon as `balance` goes negative. -/
def checkValidAux : List Char → Int → ValidateResult
  | [], balance => if 0 < balance then .tooManyOpen else .ok
  | c :: rest, balance =>
      let balance' :=
        if c = '[' then balance + 1 else if c = ']' then balance - 1 else balance
      if balance' < 0 then .tooManyClose else checkValidAux rest balance'

/-- `BrainFuck.check_valid`: scan the program with a balance counter
starting at 0. -/
def check_valid (program : List Char) : ValidateResult := checkValidAux program 0

/-- The signed contribution of one character to the bracket depth. -/
def bval (c : Char) : Int := if c = '[' then 1 else if c = ']' then -1 else 0

/-- The signed bracket depth of a character sequence, as described by the
specification: incremented on every opening bracket, decremented on
every closing one, ignoring all other characters. -/
def depth : List Char → Int
  | [] => 0
  | c :: rest => bval c + depth rest

/-- The state of a `BrainFuck` interpreter object: the (sanitized,
validated) program, the instruction pointer, the step counter, the
loop-start stack (most recent first), the band, plus the values still to
be produced by the read mode (`inp`) and those already consumed by the
print mode (`out`). -/
structure BFState where
  prog : List Char
  pointer : Nat
  counter : Nat
  loop_stack : List Nat
  band : Band
  inp : List Int
  out : List Int
deriving DecidableEq

/-- The state right after `BrainFuck.__init__` on a validated program:
pointer 0, counter 0, empty loop stack, fresh band. -/
def initState (prog : List Char) (inp : List Int) : BFState :=
  ⟨prog, 0, 0, [], Band.init, inp, []⟩

/-- `BrainFuck._do_step`: if the pointer is past the end, return without
doing anything; otherwise dispatch on the current character and then
increment pointer and counter unconditionally — also after the backward
jump of `]`, whose assignment to the pointer is followed by the same
`+= 1`.  Two cases that crash the source are totalized here and are
unreachable in a real interpreter object: a `]` on an empty loop stack
with a non-zero cell (`IndexError`; precluded for validated programs by
`endloop_reachable_stack_nonempty`) jumps to `headD 0`, and a character
outside the instruction alphabet (`KeyError`; precluded because the
constructor sanitizes) leaves the state unchanged apart from the
increments.  The read mode either returns the next integer or kills the
process on EOF, so `,` consumes `inp.headD 0`. -/
def dispatch (st : BFState) (c : Char) : BFState :=
  if c = '+' then { st with band := st.band.plus }
  else if c = '-' then { st with band := st.band.minus }
  else if c = '.' then { st with out := st.out ++ [st.band.get] }
  else if c = ',' then
    { st with band := st.band.set (st.inp.headD 0), inp := st.inp.tail }
  else if c = '<' then { st with band := st.band.left }
  else if c = '>' then { st with band := st.band.right }
  else if c = '[' then { st with loop_stack := st.pointer :: st.loop_stack }
  else if c = ']' then
    if st.band.get = 0 then { st with loop_stack := st.loop_stack.tail }
    else { st with pointer := st.loop_stack.headD 0 }
  else st

/-- One step proper: dispatch on the current character, then apply the
two unconditional increments. -/
def doStep (st : BFState) : BFState :=
  if st.prog.length ≤ st.pointer then st
  else
    let st' := dispatch st (st.prog.getD st.pointer ' ')
    { st' with pointer := st'.pointer + 1, counter := st'.counter + 1 }

/-- The `'r'` (Reset) branch of `BrainFuck.run`: `self._pointer = 0;
self._counter = 0; self._band.reset()`.  Nothing else is touched — in
particular the loop stack keeps its contents. -/
def applyReset (st : BFState) : BFState :=
  { st with pointer := 0, counter := 0, band := st.band.reset }

/-- A state of the program `[-]` about to execute the closing bracket
with current cell 5 and loop stack `[0]` (reachable: `[` pushed 0, `-`
was stepped over five times after external writes; any state with these
fields behaves identically). -/
def jumpState : BFState := ⟨['[', '-', ']'], 2, 2, [0], ⟨[], [5]⟩, [], []⟩

/-- The validated program `+[-]` used to reach a state with a non-empty
loop stack. -/
def plusLoopProg : List Char := ['+', '[', '-', ']']

/-- The state of `+[-]` after two steps from construction: `+` set the
cell to 1, `[` pushed position 1 onto the loop stack. -/
def plusLoopState2 : BFState := doStep (doStep (initState plusLoopProg []))

/-- A halted state of the one-instruction program `+`. -/
def haltedState : BFState := ⟨['+'], 1, 1, [], ⟨[], [1]⟩, [], []⟩

/-- The program `[->+<]` of claim C10. -/
def moveLoopProg : List Char := ['[', '-', '>', '+', '<', ']']

/-- The start state for claim C10: cell 0 holds 3, every other cell 0. -/
def moveLoopStart : BFState := ⟨moveLoopProg, 0, 0, [], ⟨[], [3]⟩, [], []⟩

/-- The terminal condition of `_do_step`: the pointer is at (or past) the
end of the program. -/
def isHalted (st : BFState) : Prop := st.prog.length ≤ st.pointer

instance instDecidableIsHalted (st : BFState) : Decidable (isHalted st) :=
  inferInstanceAs (Decidable (st.prog.length ≤ st.pointer))

/-- The loop-stack bookkeeping invariant: every recorded position `s[m]`
(most recent first) was pushed when the bracket depth just after it was
`s.length - m`, and the depth of the prefix before the current pointer
equals the stack size. -/
def StackInv (p : List Char) (ptr : Nat) (s : List Nat) : Prop :=
  (∀ m : Nat, m < s.length →
    depth (p.take (s.getD m 0 + 1)) = (s.length : Int) - m) ∧
  depth (p.take ptr) = (s.length : Int)

/-- Reading any index of `[v]` with default 0. -/
theorem getD_single (v : Int) (n : Nat) :
    ([v] : List Int).getD n 0 = if n = 0 then v else 0 := by
  cases n with
  | zero => simp
  | succ m => simp [List.getD_cons_succ, List.getD_nil]

/-- The fresh band agrees with the fresh specification tape. -/
theorem agrees_init : Agrees Band.init TapeSpec.init := by
  intro i
  simp only [Band.init, TapeSpec.init, bandAbs]
  split
  · rw [getD_single]; split <;> rfl
  · exact List.getD_nil

/-- `Band.left` from an empty left history materializes a zero cell. -/
theorem Band.left_nil (r : List Int) : Band.left ⟨[], r⟩ = ⟨[], 0 :: r⟩ := rfl

/-- `Band.left` from a non-empty left history moves its head over. -/
theorem Band.left_cons (a : Int) (as r : List Int) :
    Band.left ⟨a :: as, r⟩ = ⟨as, a :: r⟩ := rfl

/-- `Band.right` moves the current cell to the left history, refilling the
right side with `[0]` if it ran out. -/
theorem Band.right_cons (l : List Int) (x : Int) (xs : List Int) :
    Band.right ⟨l, x :: xs⟩ = ⟨x :: l, if xs = [] then [0] else xs⟩ := rfl

/-- Moving left shifts the absolute position down by one and changes no
cell content. -/
theorem bandAbs_left (b : Band) (pos i : Int) :
    bandAbs b.left (pos - 1) i = bandAbs b pos i := by
  rcases b with ⟨l, r⟩
  rcases l with _ | ⟨a, as⟩
  · rw [Band.left_nil]
    simp only [bandAbs]
    split_ifs with h1 h2 h2
    · have e : (i - (pos - 1)).toNat = (i - pos).toNat + 1 := by omega
      rw [e, List.getD_cons_succ]
    · have e : (i - (pos - 1)).toNat = 0 := by omega
      rw [e, List.getD_cons_zero, List.getD_nil]
    · omega
    · rw [List.getD_nil, List.getD_nil]
  · rw [Band.left_cons]
    simp only [bandAbs]
    split_ifs with h1 h2 h2
    · have e : (i - (pos - 1)).toNat = (i - pos).toNat + 1 := by omega
      rw [e, List.getD_cons_succ]
    · have e1 : (i - (pos - 1)).toNat = 0 := by omega
      have e2 : (pos - 1 - i).toNat = 0 := by omega
      rw [e1, e2, List.getD_cons_zero, List.getD_cons_zero]
    · omega
    · have e : (pos - 1 - i).toNat = (pos - 1 - 1 - i).toNat + 1 := by omega
      rw [e, List.getD_cons_succ]

/-- Moving right shifts the absolute position up by one and changes no
cell content (for a band whose right side is non-empty, as every
reachable band is). -/
theorem bandAbs_right (b : Band) (hr : b.rband ≠ []) (pos i : Int) :
    bandAbs b.right (pos + 1) i = bandAbs b pos i := by
  rcases b with ⟨l, r⟩
  rcases r with _ | ⟨x, xs⟩
  · exact absurd rfl hr
  · rw [Band.right_cons]
    rcases xs with _ | ⟨c, cs⟩
    · simp only [bandAbs, if_pos rfl]
      split_ifs with h1 h2 h2
      · rw [getD_single, getD_single]
        have e1 : ¬ (i - pos).toNat = 0 := by omega
        split_ifs with h3
        · simp [if_neg e1]
        · simp [if_neg e1]
      · omega
      · have e1 : (i - pos).toNat = 0 := by omega
        have e2 : (pos + 1 - 1 - i).toNat = 0 := by omega
        rw [e1, e2, List.getD_cons_zero, List.getD_cons_zero]
      · have e : (pos + 1 - 1 - i).toNat = (pos - 1 - i).toNat + 1 := by omega
        rw [e, List.getD_cons_succ]
  -- non-empty remainder: the nearest right cell is promoted to current
    · simp only [bandAbs, if_neg (List.cons_ne_nil c cs)]
      split_ifs with h1 h2 h2
      · have e : (i - pos).toNat = (i - (pos + 1)).toNat + 1 := by omega
        rw [e, List.getD_cons_succ]
      · omega
      · have e1 : (i - pos).toNat = 0 := by omega
        have e2 : (pos + 1 - 1 - i).toNat = 0 := by omega
        rw [e1, e2, List.getD_cons_zero, List.getD_cons_zero]
      · have e : (pos + 1 - 1 - i).toNat = (pos - 1 - i).toNat + 1 := by omega
        rw [e, List.getD_cons_succ]

/-- The current cell of a non-empty band is its contents at the current
absolute position. -/
theorem get_eq_bandAbs (b : Band) (hr : b.rband ≠ []) (pos : Int) :
    b.get = bandAbs b pos pos := by
  rcases b with ⟨l, r⟩
  rcases r with _ | ⟨x, xs⟩
  · exact absurd rfl hr
  · simp only [Band.get, bandAbs, if_pos le_rfl, List.headD_cons]
    have e : (pos - pos).toNat = 0 := by omega
    rw [e, List.getD_cons_zero]

/-- Replacing the head of the right side changes the band contents exactly
at the current position. -/
theorem bandAbs_setHead (l : List Int) (x y : Int) (xs : List Int) (pos i : Int) :
    bandAbs ⟨l, y :: xs⟩ pos i = if i = pos then y else bandAbs ⟨l, x :: xs⟩ pos i := by
  rcases eq_or_ne i pos with rfl | hne
  · simp only [bandAbs, if_pos (le_refl i)]
    have e : (i - i).toNat = 0 := by omega
    rw [e, List.getD_cons_zero]
    simp
  · rw [if_neg hne]
    simp only [bandAbs]
    split_ifs with h1
    · have e : (i - pos).toNat = (i - pos - 1).toNat + 1 := by omega
      rw [e, List.getD_cons_succ, List.getD_cons_succ]
    · rfl

/-- The band contents at the current position is the head of the right
side. -/
theorem bandAbs_cons_head (l : List Int) (x : Int) (xs : List Int) (pos : Int) :
    bandAbs ⟨l, x :: xs⟩ pos pos = x := by
  simp only [bandAbs, if_pos (le_refl pos)]
  have e : (pos - pos).toNat = 0 := by omega
  rw [e, List.getD_cons_zero]

/-- Every band operation keeps the right side non-empty. -/
theorem applyOp_rband_ne_nil (b : Band) (op : BandOp) (h : b.rband ≠ []) :
    (b.applyOp op).rband ≠ [] := by
  rcases b with ⟨l, r⟩
  rcases r with _ | ⟨x, xs⟩
  · exact absurd rfl h
  cases op with
  | left =>
      rcases l with _ | ⟨a, as⟩ <;>
        simp [Band.applyOp, Band.left_nil, Band.left_cons]
  | right =>
      show (Band.right ⟨l, x :: xs⟩).rband ≠ []
      rw [Band.right_cons]
      split_ifs with hxs
      · simp
      · simpa using hxs
  | plus => simp [Band.applyOp, Band.plus]
  | minus => simp [Band.applyOp, Band.minus]
  | setv v => simp [Band.applyOp, Band.set]
  | reset => simp [Band.applyOp, Band.reset]

/-- Each band operation simulates the corresponding specification-level
tape operation. -/
theorem agrees_applyOp (b : Band) (t : TapeSpec) (hr : b.rband ≠ [])
    (h : Agrees b t) (op : BandOp) : Agrees (b.applyOp op) (t.applyOp op) := by
  cases op with
  | left =>
      intro i
      show bandAbs b.left (t.pos - 1) i = t.mem i
      rw [bandAbs_left, h i]
  | right =>
      intro i
      show bandAbs b.right (t.pos + 1) i = t.mem i
      rw [bandAbs_right b hr, h i]
  | plus =>
      rcases b with ⟨l, r⟩
      rcases r with _ | ⟨x, xs⟩
      · exact absurd rfl hr
      intro i
      have hx : x = t.mem t.pos := by rw [← h t.pos, bandAbs_cons_head]
      show bandAbs ⟨l, (x + 1) :: xs⟩ t.pos i =
        Function.update t.mem t.pos (t.mem t.pos + 1) i
      rw [bandAbs_setHead l x (x + 1) xs]
      rcases eq_or_ne i t.pos with rfl | hne
      · rw [if_pos rfl, Function.update_same, hx]
      · rw [if_neg hne, Function.update_noteq hne, h i]
  | minus =>
      rcases b with ⟨l, r⟩
      rcases r with _ | ⟨x, xs⟩
      · exact absurd rfl hr
      intro i
      have hx : x = t.mem t.pos := by rw [← h t.pos, bandAbs_cons_head]
      show bandAbs ⟨l, (x - 1) :: xs⟩ t.pos i =
        Function.update t.mem t.pos (t.mem t.pos - 1) i
      rw [bandAbs_setHead l x (x - 1) xs]
      rcases eq_or_ne i t.pos with rfl | hne
      · rw [if_pos rfl, Function.update_same, hx]
      · rw [if_neg hne, Function.update_noteq hne, h i]
  | setv v =>
      rcases b with ⟨l, r⟩
      rcases r with _ | ⟨x, xs⟩
      · exact absurd rfl hr
      intro i
      show bandAbs ⟨l, v :: xs⟩ t.pos i = Function.update t.mem t.pos v i
      rw [bandAbs_setHead l x v xs]
      rcases eq_or_ne i t.pos with rfl | hne
      · rw [if_pos rfl, Function.update_same]
      · rw [if_neg hne, Function.update_noteq hne, h i]
  | reset =>
      intro i
      show bandAbs ⟨[], [0]⟩ 0 i = (0 : Int)
      exact agrees_init i

/-- Folding a list of operations preserves the simulation relation and
the non-emptiness of the right side. -/
theorem agrees_foldl (ops : List BandOp) :
    ∀ (b : Band) (t : TapeSpec), b.rband ≠ [] → Agrees b t →
      Agrees (ops.foldl Band.applyOp b) (ops.foldl TapeSpec.applyOp t) ∧
        (ops.foldl Band.applyOp b).rband ≠ [] := by
  induction ops with
  | nil => exact fun b t hr h => ⟨h, hr⟩
  | cons op rest ih =>
      intro b t hr h
      exact ih (b.applyOp op) (t.applyOp op) (applyOp_rband_ne_nil b op hr)
        (agrees_applyOp b t hr h op)

/-- A left move followed by a right move preserves every cell. -/
theorem bandAbs_left_right (b : Band) (hr : b.rband ≠ []) (pos i : Int) :
    bandAbs b.left.right pos i = bandAbs b pos i := by
  have h1 : b.left.rband ≠ [] := applyOp_rband_ne_nil b .left hr
  have h2 := bandAbs_right b.left h1 (pos - 1) i
  rw [sub_add_cancel] at h2
  rw [h2, bandAbs_left]

/-- A right move followed by a left move preserves every cell. -/
theorem bandAbs_right_left (b : Band) (hr : b.rband ≠ []) (pos i : Int) :
    bandAbs b.right.left pos i = bandAbs b pos i := by
  have h2 := bandAbs_left b.right (pos + 1) i
  rw [add_sub_cancel_right] at h2
  rw [h2, bandAbs_right b hr]

/-- Claim C2: the two-list `Band` faithfully implements an infinite
zero-initialized map from signed integer positions to integer values.
After any sequence of operations from a fresh band, every position reads
back the value last written there (0 if never written), `get` returns the
map value at the current position, and a left move followed by a right
move (or a right move followed by a left move) preserves the value of
every position. -/
theorem band_refines_sparse_map (ops : List BandOp) :
    (∀ i : Int,
      bandAbs (runBandOps ops) (runTapeSpec ops).pos i = (runTapeSpec ops).mem i) ∧
    (runBandOps ops).get = (runTapeSpec ops).mem (runTapeSpec ops).pos ∧
    (∀ i : Int,
      bandAbs (runBandOps ops).left.right (runTapeSpec ops).pos i =
        bandAbs (runBandOps ops) (runTapeSpec ops).pos i) ∧
    (∀ i : Int,
      bandAbs (runBandOps ops).right.left (runTapeSpec ops).pos i =
        bandAbs (runBandOps ops) (runTapeSpec ops).pos i) := by
  unfold runBandOps runTapeSpec
  obtain ⟨hA, hr⟩ :=
    agrees_foldl ops Band.init TapeSpec.init (by simp [Band.init]) agrees_init
  refine ⟨hA, ?_, fun i => bandAbs_left_right _ hr _ i,
    fun i => bandAbs_right_left _ hr _ i⟩
  rw [get_eq_bandAbs _ hr (ops.foldl TapeSpec.applyOp TapeSpec.init).pos, hA _]

/-- Claim C7: after any sequence of band operations from a fresh band the
right-side list (which holds the current cell at index 0) is non-empty,
so `get`, `set`, `plus` and `minus` never index an empty list. -/
theorem band_rband_never_empty (ops : List BandOp) :
    (runBandOps ops).rband ≠ [] :=
  (agrees_foldl ops Band.init TapeSpec.init (by simp [Band.init]) agrees_init).2

/-- The balance update of `check_valid` is addition of `bval`. -/
theorem balance_update (c : Char) (bal : Int) :
    (if c = '[' then bal + 1 else if c = ']' then bal - 1 else bal) = bal + bval c := by
  simp only [bval]
  split_ifs <;> ring

/-- Unfolding `checkValidAux` on a cons cell. -/
theorem checkValidAux_cons (c : Char) (rest : List Char) (bal : Int) :
    checkValidAux (c :: rest) bal =
      if bal + bval c < 0 then .tooManyClose else checkValidAux rest (bal + bval c) := by
  rw [← balance_update c bal]
  rfl

/-- `checkValidAux` answers `tooManyClose` exactly when some prefix drives
the balance negative. -/
theorem checkValidAux_eq_tooManyClose (l : List Char) :
    ∀ bal : Int, 0 ≤ bal →
      (checkValidAux l bal = .tooManyClose ↔ ∃ n, bal + depth (l.take n) < 0) := by
  induction l with
  | nil =>
      intro bal hb
      constructor
      · intro h
        exfalso
        unfold checkValidAux at h
        split_ifs at h
      · rintro ⟨n, hn⟩
        rw [List.take_nil] at hn
        simp only [depth] at hn
        omega
  | cons c rest ih =>
      intro bal hb
      rw [checkValidAux_cons]
      by_cases hneg : bal + bval c < 0
      · rw [if_pos hneg]
        constructor
        · intro _
          refine ⟨1, ?_⟩
          rw [List.take_succ_cons, List.take_zero]
          simp only [depth]
          omega
        · intro _
          rfl
      · rw [if_neg hneg]
        rw [ih (bal + bval c) (by omega)]
        constructor
        · rintro ⟨n, hn⟩
          refine ⟨n + 1, ?_⟩
          rw [List.take_succ_cons]
          simp only [depth] at hn ⊢
          omega
        · rintro ⟨n, hn⟩
          cases n with
          | zero =>
              exfalso
              rw [List.take_zero] at hn
              simp only [depth] at hn
              omega
          | succ m =>
              refine ⟨m, ?_⟩
              rw [List.take_succ_cons] at hn
              simp only [depth] at hn ⊢
              omega

/-- `checkValidAux` answers `tooManyOpen` exactly when no prefix drives
the balance negative but the final balance is positive. -/
theorem checkValidAux_eq_tooManyOpen (l : List Char) :
    ∀ bal : Int, 0 ≤ bal →
      (checkValidAux l bal = .tooManyOpen ↔
        (∀ n, 0 ≤ bal + depth (l.take n)) ∧ 0 < bal + depth l) := by
  induction l with
  | nil =>
      intro bal hb
      unfold checkValidAux
      split_ifs with hpos
      · constructor
        · intro _
          refine ⟨fun n => ?_, ?_⟩
          · rw [List.take_nil]
            simp only [depth]
            omega
          · simp only [depth]
            omega
        · intro _
          rfl
      · constructor
        · intro h
          exact absurd h (by decide)
        · rintro ⟨_, h2⟩
          simp only [depth] at h2
          omega
  | cons c rest ih =>
      intro bal hb
      rw [checkValidAux_cons]
      by_cases hneg : bal + bval c < 0
      · rw [if_pos hneg]
        constructor
        · intro h
          exact absurd h (by decide)
        · rintro ⟨h1, _⟩
          have := h1 1
          rw [List.take_succ_cons, List.take_zero] at this
          simp only [depth] at this
          omega
      · rw [if_neg hneg]
        rw [ih (bal + bval c) (by omega)]
        constructor
        · rintro ⟨h1, h2⟩
          refine ⟨fun n => ?_, ?_⟩
          · cases n with
            | zero =>
                rw [List.take_zero]
                simp only [depth]
                omega
            | succ m =>
                have := h1 m
                rw [List.take_succ_cons]
                simp only [depth] at this ⊢
                omega
          · simp only [depth]
            omega
        · rintro ⟨h1, h2⟩
          refine ⟨fun n => ?_, ?_⟩
          · have := h1 (n + 1)
            rw [List.take_succ_cons] at this
            simp only [depth] at this ⊢
            omega
          · simp only [depth] at h2
            omega

/-- `checkValidAux` accepts exactly when no prefix drives the balance
negative and the final balance is zero. -/
theorem checkValidAux_eq_ok (l : List Char) :
    ∀ bal : Int, 0 ≤ bal →
      (checkValidAux l bal = .ok ↔
        (∀ n, 0 ≤ bal + depth (l.take n)) ∧ bal + depth l = 0) := by
  induction l with
  | nil =>
      intro bal hb
      unfold checkValidAux
      split_ifs with hpos
      · constructor
        · intro h
          exact absurd h (by decide)
        · rintro ⟨_, h2⟩
          simp only [depth] at h2
          omega
      · constructor
        · intro _
          refine ⟨fun n => ?_, ?_⟩
          · rw [List.take_nil]
            simp only [depth]
            omega
          · simp only [depth]
            omega
        · intro _
          rfl
  | cons c rest ih =>
      intro bal hb
      rw [checkValidAux_cons]
      by_cases hneg : bal + bval c < 0
      · rw [if_pos hneg]
        constructor
        · intro h
          exact absurd h (by decide)
        · rintro ⟨h1, _⟩
          have := h1 1
          rw [List.take_succ_cons, List.take_zero] at this
          simp only [depth] at this
          omega
      · rw [if_neg hneg]
        rw [ih (bal + bval c) (by omega)]
        constructor
        · rintro ⟨h1, h2⟩
          refine ⟨fun n => ?_, ?_⟩
          · cases n with
            | zero =>
                rw [List.take_zero]
                simp only [depth]
                omega
            | succ m =>
                have := h1 m
                rw [List.take_succ_cons]
                simp only [depth] at this ⊢
                omega
          · simp only [depth]
            omega
        · rintro ⟨h1, h2⟩
          refine ⟨fun n => ?_, ?_⟩
          · have := h1 (n + 1)
            rw [List.take_succ_cons] at this
            simp only [depth] at this ⊢
            omega
          · simp only [depth] at h2
            omega

/-- `sanitize` on a cons cell. -/
theorem sanitize_cons (c : Char) (rest : List Char) :
    sanitize (c :: rest) =
      if c ∈ valid_chars then c :: sanitize rest else sanitize rest := by
  simp only [sanitize, List.filter_cons]
  split_ifs with h1 h2 h2 <;> first | rfl | simp_all

/-- A character that is filtered out as a comment is not a bracket. -/
theorem bval_of_not_valid (c : Char) (h : c ∉ valid_chars) : bval c = 0 := by
  unfold bval
  split_ifs with h1 h2
  · exact absurd (h1 ▸ (by decide : ('[' : Char) ∈ valid_chars)) h
  · exact absurd (h2 ▸ (by decide : (']' : Char) ∈ valid_chars)) h
  · rfl

/-- Every depth reached on a prefix of the sanitized program is reached
on a prefix of the raw program. -/
theorem sanitize_take_depth (s : List Char) :
    ∀ m, ∃ n, depth ((sanitize s).take m) = depth (s.take n) := by
  induction s with
  | nil =>
      intro m
      exact ⟨0, by simp [sanitize]⟩
  | cons c rest ih =>
      intro m
      rw [sanitize_cons]
      by_cases hc : c ∈ valid_chars
      · rw [if_pos hc]
        cases m with
        | zero => exact ⟨0, by simp⟩
        | succ k =>
            obtain ⟨n, hn⟩ := ih k
            refine ⟨n + 1, ?_⟩
            rw [List.take_succ_cons, List.take_succ_cons]
            simp only [depth]
            omega
      · rw [if_neg hc]
        obtain ⟨n, hn⟩ := ih m
        refine ⟨n + 1, ?_⟩
        rw [List.take_succ_cons]
        simp only [depth]
        rw [bval_of_not_valid c hc]
        omega

/-- Every depth reached on a prefix of the raw program is reached on a
prefix of the sanitized program. -/
theorem take_depth_sanitize (s : List Char) :
    ∀ n, ∃ m, depth (s.take n) = depth ((sanitize s).take m) := by
  induction s with
  | nil =>
      intro n
      exact ⟨0, by simp [sanitize]⟩
  | cons c rest ih =>
      intro n
      rw [sanitize_cons]
      cases n with
      | zero => exact ⟨0, by simp⟩
      | succ k =>
          by_cases hc : c ∈ valid_chars
          · rw [if_pos hc]
            obtain ⟨m, hm⟩ := ih k
            refine ⟨m + 1, ?_⟩
            rw [List.take_succ_cons, List.take_succ_cons]
            simp only [depth]
            omega
          · rw [if_neg hc]
            obtain ⟨m, hm⟩ := ih k
            refine ⟨m, ?_⟩
            rw [List.take_succ_cons]
            simp only [depth]
            rw [bval_of_not_valid c hc]
            omega

/-- Dropping comments does not change the total bracket depth. -/
theorem depth_sanitize (s : List Char) : depth (sanitize s) = depth s := by
  induction s with
  | nil => simp [sanitize]
  | cons c rest ih =>
      rw [sanitize_cons]
      by_cases hc : c ∈ valid_chars
      · rw [if_pos hc]
        simp only [depth]
        omega
      · rw [if_neg hc]
        simp only [depth]
        rw [bval_of_not_valid c hc]
        omega

/-- Claim C3: validation of the sanitized program rejects exactly the
character strings whose bracket subsequence is unbalanced — it answers
`tooManyClose` iff some prefix of the raw text has negative signed
bracket depth, `tooManyOpen` iff no prefix goes negative but the total
depth is positive, and accepts iff no prefix goes negative and the total
depth is zero, regardless of interleaved comment characters. -/
theorem check_valid_sanitize_balanced (s : List Char) :
    (check_valid (sanitize s) = .tooManyClose ↔ ∃ n, depth (s.take n) < 0) ∧
    (check_valid (sanitize s) = .tooManyOpen ↔
      (∀ n, 0 ≤ depth (s.take n)) ∧ 0 < depth s) ∧
    (check_valid (sanitize s) = .ok ↔
      (∀ n, 0 ≤ depth (s.take n)) ∧ depth s = 0) := by
  have hneg : (∃ m, depth ((sanitize s).take m) < 0) ↔ ∃ n, depth (s.take n) < 0 := by
    constructor
    · rintro ⟨m, hm⟩
      obtain ⟨n, hn⟩ := sanitize_take_depth s m
      exact ⟨n, hn ▸ hm⟩
    · rintro ⟨n, hn⟩
      obtain ⟨m, hm⟩ := take_depth_sanitize s n
      exact ⟨m, hm ▸ hn⟩
  have hpos : (∀ m, 0 ≤ depth ((sanitize s).take m)) ↔ ∀ n, 0 ≤ depth (s.take n) := by
    constructor
    · intro h n
      obtain ⟨m, hm⟩ := take_depth_sanitize s n
      rw [hm]
      exact h m
    · intro h m
      obtain ⟨n, hn⟩ := sanitize_take_depth s m
      rw [hn]
      exact h n
  refine ⟨?_, ?_, ?_⟩
  · rw [check_valid, checkValidAux_eq_tooManyClose (sanitize s) 0 le_rfl]
    simp only [zero_add]
    exact hneg
  · rw [check_valid, checkValidAux_eq_tooManyOpen (sanitize s) 0 le_rfl]
    simp only [zero_add]
    rw [depth_sanitize]
    exact and_congr hpos Iff.rfl
  · rw [check_valid, checkValidAux_eq_ok (sanitize s) 0 le_rfl]
    simp only [zero_add]
    rw [depth_sanitize]
    exact and_congr hpos Iff.rfl

/-- `_do_step` at or past the end of the program is the identity. -/
theorem doStep_terminal (st : BFState) (h : st.prog.length ≤ st.pointer) :
    doStep st = st := by
  unfold doStep
  rw [if_pos h]

/-- The dispatch table never changes the program. -/
theorem dispatch_prog (st : BFState) (c : Char) : (dispatch st c).prog = st.prog := by
  unfold dispatch
  split_ifs <;> rfl

/-- The dispatch table never changes the step counter (the increment
happens afterwards in `_do_step`). -/
theorem dispatch_counter (st : BFState) (c : Char) :
    (dispatch st c).counter = st.counter := by
  unfold dispatch
  split_ifs <;> rfl

/-- `_do_step` never changes the program. -/
theorem doStep_prog (st : BFState) : (doStep st).prog = st.prog := by
  unfold doStep
  split_ifs with h
  · rfl
  · exact dispatch_prog st _

/-- A non-terminal `_do_step` increments the step counter by exactly 1. -/
theorem doStep_counter (st : BFState) (h : ¬ st.prog.length ≤ st.pointer) :
    (doStep st).counter = st.counter + 1 := by
  unfold doStep
  rw [if_neg h]
  show (dispatch st _).counter + 1 = st.counter + 1
  rw [dispatch_counter]

/-- Dispatching `[` pushes the pointer onto the loop stack. -/
theorem dispatch_loop (st : BFState) :
    dispatch st '[' = { st with loop_stack := st.pointer :: st.loop_stack } := rfl

/-- Dispatching `]` on a zero cell pops the loop stack. -/
theorem dispatch_endloop_zero (st : BFState) (hz : st.band.get = 0) :
    dispatch st ']' = { st with loop_stack := st.loop_stack.tail } := by
  unfold dispatch
  simp [hz]

/-- Dispatching `]` on a non-zero cell overwrites the pointer with the
top of the loop stack. -/
theorem dispatch_endloop_jump (st : BFState) (hz : ¬ st.band.get = 0) :
    dispatch st ']' = { st with pointer := st.loop_stack.headD 0 } := by
  unfold dispatch
  simp [hz]

/-- Dispatching a non-bracket character changes neither pointer nor loop
stack. -/
theorem dispatch_other (st : BFState) (c : Char)
    (hc1 : c ≠ '[') (hc2 : c ≠ ']') :
    (dispatch st c).pointer = st.pointer ∧
    (dispatch st c).loop_stack = st.loop_stack := by
  unfold dispatch
  split_ifs <;> exact ⟨rfl, rfl⟩

/-- One full step of `[`: push the pointer, then increment pointer and
counter. -/
theorem doStep_loop (st : BFState) (hterm : ¬ st.prog.length ≤ st.pointer)
    (hc : st.prog.getD st.pointer ' ' = '[') :
    doStep st = { st with loop_stack := st.pointer :: st.loop_stack,
                          pointer := st.pointer + 1, counter := st.counter + 1 } := by
  unfold doStep
  rw [if_neg hterm]
  show { dispatch st (st.prog.getD st.pointer ' ') with
           pointer := (dispatch st (st.prog.getD st.pointer ' ')).pointer + 1,
           counter := (dispatch st (st.prog.getD st.pointer ' ')).counter + 1 } = _
  rw [hc, dispatch_loop]

/-- One full step of `]` on a zero cell: pop the loop stack, then
increment pointer and counter. -/
theorem doStep_endloop_zero (st : BFState) (hterm : ¬ st.prog.length ≤ st.pointer)
    (hc : st.prog.getD st.pointer ' ' = ']') (hz : st.band.get = 0) :
    doStep st = { st with loop_stack := st.loop_stack.tail,
                          pointer := st.pointer + 1, counter := st.counter + 1 } := by
  unfold doStep
  rw [if_neg hterm]
  show { dispatch st (st.prog.getD st.pointer ' ') with
           pointer := (dispatch st (st.prog.getD st.pointer ' ')).pointer + 1,
           counter := (dispatch st (st.prog.getD st.pointer ' ')).counter + 1 } = _
  rw [hc, dispatch_endloop_zero st hz]

/-- One full step of `]` on a non-zero cell: the pointer is overwritten
with the top of the loop stack and then the unconditional increment
applies. -/
theorem doStep_endloop_jump (st : BFState) (hterm : ¬ st.prog.length ≤ st.pointer)
    (hc : st.prog.getD st.pointer ' ' = ']') (hz : ¬ st.band.get = 0) :
    doStep st = { st with pointer := st.loop_stack.headD 0 + 1,
                          counter := st.counter + 1 } := by
  unfold doStep
  rw [if_neg hterm]
  show { dispatch st (st.prog.getD st.pointer ' ') with
           pointer := (dispatch st (st.prog.getD st.pointer ' ')).pointer + 1,
           counter := (dispatch st (st.prog.getD st.pointer ' ')).counter + 1 } = _
  rw [hc, dispatch_endloop_jump st hz]

/-- One full step of any non-bracket character: pointer and counter are
incremented, the loop stack is unchanged. -/
theorem doStep_other (st : BFState) (hterm : ¬ st.prog.length ≤ st.pointer)
    (hc1 : st.prog.getD st.pointer ' ' ≠ '[')
    (hc2 : st.prog.getD st.pointer ' ' ≠ ']') :
    (doStep st).pointer = st.pointer + 1 ∧
    (doStep st).loop_stack = st.loop_stack := by
  obtain ⟨hp, hs⟩ := dispatch_other st (st.prog.getD st.pointer ' ') hc1 hc2
  unfold doStep
  rw [if_neg hterm]
  constructor
  · show (dispatch st (st.prog.getD st.pointer ' ')).pointer + 1 = st.pointer + 1
    rw [hp]
  · show (dispatch st (st.prog.getD st.pointer ' ')).loop_stack = st.loop_stack
    exact hs

/-- Claim C1, counterexample: executing `]` with a non-zero cell does NOT
leave the pointer at the recorded position of the matching `[` — the
unconditional post-dispatch increment lands it one further.  Here the top
of the loop stack is 0 but the pointer after the step is 1. -/
theorem endloop_jump_counterexample :
    jumpState.prog.getD jumpState.pointer ' ' = ']' ∧
    jumpState.band.get ≠ 0 ∧
    jumpState.loop_stack.headD 0 = 0 ∧
    (doStep jumpState).loop_stack = jumpState.loop_stack ∧
    (doStep jumpState).pointer = 1 ∧
    (doStep jumpState).pointer ≠ jumpState.loop_stack.headD 0 := by decide

/-- Claim C1 (amended): in any non-terminal state whose current
instruction is `]` and whose current cell is non-zero, one step leaves
the loop-start stack unchanged and sets the instruction pointer to the
value on top of the loop-start stack PLUS ONE — the dispatch overwrites
the pointer with the recorded position of the matching `[` and the
unconditional post-dispatch increment then applies, so execution resumes
just past the `[`. -/
theorem endloop_jump_amended (st : BFState)
    (hterm : st.pointer < st.prog.length)
    (hc : st.prog.getD st.pointer ' ' = ']')
    (hz : st.band.get ≠ 0) :
    (doStep st).loop_stack = st.loop_stack ∧
    (doStep st).pointer = st.loop_stack.headD 0 + 1 := by
  have hlt : ¬ st.prog.length ≤ st.pointer := Nat.not_le.mpr hterm
  rw [doStep_endloop_jump st hlt hc hz]
  exact ⟨rfl, rfl⟩

/-- Witness for the amended claim C1 at the concrete state `jumpState`. -/
theorem endloop_jump_amended_witness :
    (doStep jumpState).loop_stack = jumpState.loop_stack ∧
    (doStep jumpState).pointer = jumpState.loop_stack.headD 0 + 1 :=
  endloop_jump_amended jumpState (by decide) (by decide) (by decide)

/-- Claim C4, counterexample: `+[-]` validates, and after the two steps
that execute `+` and `[` its loop stack is `[1]`; processing a Reset
decision leaves the stack at `[1]`, not empty — the source's `'r'` branch
never touches `self._loop_stack`. -/
theorem reset_stack_counterexample :
    check_valid plusLoopProg = .ok ∧
    plusLoopState2.loop_stack = [1] ∧
    (applyReset plusLoopState2).loop_stack = [1] ∧
    (applyReset plusLoopState2).loop_stack ≠ [] := by decide

/-- Claim C4 (amended): processing a Reset decision leaves the loop-start
stack exactly as it was before the reset; in particular it is empty after
the reset only when it was already empty. -/
theorem reset_preserves_loop_stack (st : BFState) :
    (applyReset st).loop_stack = st.loop_stack := rfl

/-- Claim C5: after processing a Reset decision the instruction pointer
is 0, the step counter is 0, and the band is the freshly constructed
band — in particular its position-to-value map is that of a fresh tape
with a single zero cell. -/
theorem reset_restores_initial (st : BFState) :
    (applyReset st).pointer = 0 ∧
    (applyReset st).counter = 0 ∧
    (applyReset st).band = Band.init ∧
    (∀ i : Int, bandAbs (applyReset st).band 0 i = bandAbs Band.init 0 i) :=
  ⟨rfl, rfl, rfl, fun _ => rfl⟩

/-- Claim C9: from a state whose pointer equals the program length,
`_do_step` returns immediately, so any number of steps leaves every
component of the state — pointer, counter, band, loop stack, pending
input and produced output — unchanged. -/
theorem halted_step_noop (st : BFState) (h : st.pointer = st.prog.length) :
    ∀ n : Nat, doStep^[n] st = st := by
  have h1 : doStep st = st := by
    unfold doStep
    rw [if_pos (by omega)]
  intro n
  induction n with
  | zero => rfl
  | succ k ih => rw [Function.iterate_succ_apply, h1, ih]

/-- Witness for claim C9 at the concrete halted state. -/
theorem halted_step_noop_witness : doStep^[5] haltedState = haltedState :=
  halted_step_noop haltedState (by decide) 5

/-- Claim C10: running `[->+<]` from cell 0 = 3, cell 1 = 0 terminates
(after 16 steps): the pointer reaches the program length, cell 0 holds 0
and cell 1 holds 3 (the head is back on cell 0 and the band is exactly
`⟨[], [0, 3]⟩`). -/
theorem move_loop_runs_to_completion :
    ∃ n : Nat,
      (doStep^[n] moveLoopStart).pointer = moveLoopProg.length ∧
      bandAbs (doStep^[n] moveLoopStart).band 0 0 = 0 ∧
      bandAbs (doStep^[n] moveLoopStart).band 0 1 = 3 ∧
      (doStep^[n] moveLoopStart).band = ⟨[], [0, 3]⟩ :=
  ⟨16, by decide⟩

/-- Once halted, any number of steps is the identity. -/
theorem doStep_iterate_halted (st : BFState) (h : st.prog.length ≤ st.pointer) :
    ∀ n : Nat, doStep^[n] st = st := by
  intro n
  induction n with
  | zero => rfl
  | succ k ih => rw [Function.iterate_succ_apply, doStep_terminal st h, ih]

/-- If the engine never halts, every step increments the counter. -/
theorem counter_of_never_halted : ∀ (n : Nat) (st : BFState),
    (∀ k, ¬ isHalted (doStep^[k] st)) →
    (doStep^[n] st).counter = st.counter + n := by
  intro n
  induction n with
  | zero => intro st _; rfl
  | succ m ih =>
      intro st h
      rw [Function.iterate_succ_apply]
      have h0 : ¬ isHalted st := h 0
      have h' : ∀ k, ¬ isHalted (doStep^[k] (doStep st)) := by
        intro k
        have hk := h (k + 1)
        rwa [Function.iterate_succ_apply] at hk
      rw [ih (doStep st) h', doStep_counter st h0]
      omega

/-- If the engine eventually halts, the counter advances by the number of
steps actually executed: `min n (first halting time)`. -/
theorem counter_of_halted : ∀ (n : Nat) (st : BFState)
    (h : ∃ k, isHalted (doStep^[k] st)),
    (doStep^[n] st).counter = st.counter + min n (Nat.find h) := by
  intro n
  induction n with
  | zero => intro st h; simp
  | succ m ih =>
      intro st h
      by_cases h0 : isHalted st
      · have hf : Nat.find h = 0 := by
          rw [Nat.find_eq_zero]
          exact h0
        rw [hf, doStep_iterate_halted st h0 (m + 1)]
        simp
      · have h' : ∃ k, isHalted (doStep^[k] (doStep st)) := by
          obtain ⟨k, hk⟩ := h
          cases k with
          | zero => exact absurd hk h0
          | succ k2 =>
              rw [Function.iterate_succ_apply] at hk
              exact ⟨k2, hk⟩
        have hpos : 0 < Nat.find h := by
          rcases Nat.eq_zero_or_pos (Nat.find h) with hf0 | hf
          · exact absurd ((Nat.find_eq_zero h).mp hf0) h0
          · exact hf
        have hff : Nat.find h' = Nat.find h - 1 := by
          apply le_antisymm
          · apply Nat.find_min' h'
            have hs := Nat.find_spec h
            rw [show Nat.find h = (Nat.find h - 1) + 1 from by omega,
              Function.iterate_succ_apply] at hs
            exact hs
          · have hs := Nat.find_spec h'
            have h2 : isHalted (doStep^[Nat.find h' + 1] st) := by
              rw [Function.iterate_succ_apply]
              exact hs
            have h3 := Nat.find_min' h h2
            omega
        rw [Function.iterate_succ_apply, ih (doStep st) h', doStep_counter st h0, hff]
        omega

/-- Claim C8: from any state with step counter `c`, executing a batch of
`n` steps leaves the counter at `c + min n m`, where `m` is the number of
steps until terminal — the first iterate at which the pointer has reached
the program length (steps attempted at the terminal pointer do not
increment the counter); if the engine never reaches terminal the counter
is `c + n`. -/
theorem step_counter_monotonicity (st : BFState) (n : Nat) :
    (∀ m : Nat, isHalted (doStep^[m] st) →
      (∀ j, j < m → ¬ isHalted (doStep^[j] st)) →
      (doStep^[n] st).counter = st.counter + min n m) ∧
    ((∀ k, ¬ isHalted (doStep^[k] st)) →
      (doStep^[n] st).counter = st.counter + n) := by
  constructor
  · intro m hm hj
    have h : ∃ k, isHalted (doStep^[k] st) := ⟨m, hm⟩
    have h1 : Nat.find h ≤ m := Nat.find_min' h hm
    have h2 : m ≤ Nat.find h :=
      Nat.le_of_not_lt fun hlt => hj (Nat.find h) hlt (Nat.find_spec h)
    have hfm : Nat.find h = m := le_antisymm h1 h2
    rw [counter_of_halted n st h, hfm]
  · exact counter_of_never_halted n st

/-- Witness for claim C8: the program `+` halts first at iterate 1;
stepping a batch of 3 from construction leaves the counter at
0 + min 3 1 = 1. -/
theorem step_counter_monotonicity_witness :
    (doStep^[3] (initState ['+'] [])).counter =
      (initState ['+'] []).counter + min 3 1 :=
  (step_counter_monotonicity (initState ['+'] []) 3).1 1 (by decide)
    (fun j hj => by
      have hj0 : j = 0 := by omega
      subst hj0
      decide)

/-- Extending a prefix by one character adds that character's bracket
value to the depth. -/
theorem depth_take_succ : ∀ (p : List Char) (i : Nat), i < p.length →
    depth (p.take (i + 1)) = depth (p.take i) + bval (p.getD i ' ') := by
  intro p
  induction p with
  | nil =>
      intro i h
      simp at h
  | cons c rest ih =>
      intro i h
      cases i with
      | zero =>
          rw [List.take_succ_cons, List.take_zero, List.take_zero, List.getD_cons_zero]
          simp only [depth]
          ring
      | succ j =>
          rw [List.take_succ_cons, List.take_succ_cons, List.getD_cons_succ]
          simp only [depth]
          rw [ih j (by simpa using h)]
          ring

/-- Executing `[` preserves the invariant: the pushed position carries
depth `s.length + 1`. -/
theorem stackInv_push (p : List Char) (ptr : Nat) (s : List Nat)
    (hlt : ptr < p.length) (hc : p.getD ptr ' ' = '[')
    (h : StackInv p ptr s) : StackInv p (ptr + 1) (ptr :: s) := by
  obtain ⟨helts, hcur⟩ := h
  have hsucc := depth_take_succ p ptr hlt
  rw [hc] at hsucc
  have hb : bval '[' = 1 := rfl
  rw [hb] at hsucc
  constructor
  · intro m hm
    simp only [List.length_cons] at hm ⊢
    cases m with
    | zero =>
        rw [List.getD_cons_zero, hsucc, hcur]
        push_cast
        ring
    | succ m2 =>
        rw [List.getD_cons_succ]
        have he := helts m2 (by omega)
        rw [he]
        push_cast
        ring
  · simp only [List.length_cons]
    rw [hsucc, hcur]
    push_cast
    ring

/-- At a `]` inside the program the invariant forces a non-empty loop
stack (this is the heart of claim C6). -/
theorem stackInv_nonempty (p : List Char) (ptr : Nat) (s : List Nat)
    (hval : ∀ n, 0 ≤ depth (p.take n)) (hlt : ptr < p.length)
    (hc : p.getD ptr ' ' = ']') (h : StackInv p ptr s) : s ≠ [] := by
  obtain ⟨helts, hcur⟩ := h
  intro hnil
  subst hnil
  have hsucc := depth_take_succ p ptr hlt
  rw [hc] at hsucc
  have hb : bval ']' = -1 := rfl
  rw [hb, hcur] at hsucc
  have hge := hval (ptr + 1)
  rw [hsucc] at hge
  simp only [List.length_nil, Nat.cast_zero] at hge
  omega

/-- Executing `]` on a zero cell preserves the invariant with the popped
stack. -/
theorem stackInv_pop (p : List Char) (ptr : Nat) (s : List Nat)
    (hval : ∀ n, 0 ≤ depth (p.take n)) (hlt : ptr < p.length)
    (hc : p.getD ptr ' ' = ']') (h : StackInv p ptr s) :
    StackInv p (ptr + 1) s.tail := by
  have hne := stackInv_nonempty p ptr s hval hlt hc h
  rcases s with _ | ⟨j, js⟩
  · exact absurd rfl hne
  obtain ⟨helts, hcur⟩ := h
  have hsucc := depth_take_succ p ptr hlt
  rw [hc] at hsucc
  have hb : bval ']' = -1 := rfl
  rw [hb, hcur] at hsucc
  simp only [List.length_cons] at hsucc
  constructor
  · intro m hm
    simp only [List.tail_cons] at hm ⊢
    have he := helts (m + 1) (by simp only [List.length_cons]; omega)
    rw [List.getD_cons_succ] at he
    rw [he]
    simp only [List.length_cons]
    push_cast
    ring
  · simp only [List.tail_cons]
    rw [hsucc]
    push_cast
    ring

/-- Executing `]` on a non-zero cell preserves the invariant with the
pointer moved to one past the recorded loop start and the stack kept. -/
theorem stackInv_jump (p : List Char) (ptr : Nat) (s : List Nat)
    (hval : ∀ n, 0 ≤ depth (p.take n)) (hlt : ptr < p.length)
    (hc : p.getD ptr ' ' = ']') (h : StackInv p ptr s) :
    StackInv p (s.headD 0 + 1) s := by
  have hne := stackInv_nonempty p ptr s hval hlt hc h
  rcases s with _ | ⟨j, js⟩
  · exact absurd rfl hne
  obtain ⟨helts, hcur⟩ := h
  refine ⟨helts, ?_⟩
  have he := helts 0 (by simp)
  rw [List.getD_cons_zero] at he
  simpa using he

/-- Executing any non-bracket character preserves the invariant. -/
theorem stackInv_skip (p : List Char) (ptr : Nat) (s : List Nat)
    (hlt : ptr < p.length) (hb : bval (p.getD ptr ' ') = 0)
    (h : StackInv p ptr s) : StackInv p (ptr + 1) s := by
  obtain ⟨helts, hcur⟩ := h
  refine ⟨helts, ?_⟩
  rw [depth_take_succ p ptr hlt, hb, hcur]
  ring

/-- One engine step preserves the loop-stack invariant, whatever the
tape and I/O do. -/
theorem stackInv_doStep (st : BFState)
    (hval : ∀ n, 0 ≤ depth (st.prog.take n))
    (h : StackInv st.prog st.pointer st.loop_stack) :
    StackInv (doStep st).prog (doStep st).pointer (doStep st).loop_stack := by
  by_cases hterm : st.prog.length ≤ st.pointer
  · rw [doStep_terminal st hterm]
    exact h
  · have hlt : st.pointer < st.prog.length := Nat.lt_of_not_le hterm
    by_cases h1 : st.prog.getD st.pointer ' ' = '['
    · rw [doStep_loop st hterm h1]
      exact stackInv_push st.prog st.pointer st.loop_stack hlt h1 h
    · by_cases h2 : st.prog.getD st.pointer ' ' = ']'
      · by_cases hz : st.band.get = 0
        · rw [doStep_endloop_zero st hterm h2 hz]
          exact stackInv_pop st.prog st.pointer st.loop_stack hval hlt h2 h
        · rw [doStep_endloop_jump st hterm h2 hz]
          exact stackInv_jump st.prog st.pointer st.loop_stack hval hlt h2 h
      · have hb : bval (st.prog.getD st.pointer ' ') = 0 := by
          unfold bval
          rw [if_neg h1, if_neg h2]
        obtain ⟨hp, hs⟩ := doStep_other st hterm h1 h2
        rw [doStep_prog, hp, hs]
        exact stackInv_skip st.prog st.pointer st.loop_stack hlt hb h

/-- Every state reached by stepping from construction satisfies the
loop-stack invariant, and the program never changes. -/
theorem stackInv_iterate (p : List Char) (inp : List Int)
    (hval : ∀ n, 0 ≤ depth (p.take n)) (n : Nat) :
    StackInv (doStep^[n] (initState p inp)).prog
      (doStep^[n] (initState p inp)).pointer
      (doStep^[n] (initState p inp)).loop_stack ∧
    (doStep^[n] (initState p inp)).prog = p := by
  induction n with
  | zero =>
      refine ⟨⟨?_, ?_⟩, rfl⟩
      · intro m hm
        simp [initState] at hm
      · simp [initState, depth]
  | succ k ih =>
      obtain ⟨hinv, hprog⟩ := ih
      rw [Function.iterate_succ_apply']
      refine ⟨stackInv_doStep _ ?_ hinv, ?_⟩
      · intro m
        rw [hprog]
        exact hval m
      · rw [doStep_prog]
        exact hprog

/-- Claim C6: for every program that passes validation, in every state
reachable by stepping from the freshly constructed engine (no resets),
whenever the current instruction is `]` the loop-start stack is
non-empty, so the dispatch of `]` never indexes an empty stack. -/
theorem endloop_reachable_stack_nonempty (p : List Char) (inp : List Int) (n : Nat)
    (hok : check_valid p = .ok)
    (hterm : (doStep^[n] (initState p inp)).pointer < p.length)
    (hc : p.getD (doStep^[n] (initState p inp)).pointer ' ' = ']') :
    (doStep^[n] (initState p inp)).loop_stack ≠ [] := by
  have hval : ∀ m, 0 ≤ depth (p.take m) := by
    rw [check_valid, checkValidAux_eq_ok p 0 le_rfl] at hok
    intro m
    have := hok.1 m
    omega
  obtain ⟨hinv, hprog⟩ := stackInv_iterate p inp hval n
  have hlt : (doStep^[n] (initState p inp)).pointer <
      (doStep^[n] (initState p inp)).prog.length := by
    rw [hprog]
    exact hterm
  exact stackInv_nonempty _ _ _ (fun m => by rw [hprog]; exact hval m) hlt
    (by rw [hprog]; exact hc) hinv

/-- Witness for claim C6: the validated program `+[-]`, three steps in,
sits on its `]` with loop stack `[1]`. -/
theorem endloop_reachable_stack_nonempty_witness :
    (doStep^[3] (initState ['+', '[', '-', ']'] [])).loop_stack ≠ [] :=
  endloop_reachable_stack_nonempty ['+', '[', '-', ']'] [] 3
    (by decide) (by decide) (by decide)
